import Mathlib

/-!
Verification of the strip query / filtering / graph-closure engine of
`source/blender/sequencer/intern/iterator.cc`.

The data model is a shallow embedding of the `Strip` ("sequence") structure:
a strip carries an identity (standing for the C pointer), a display name,
a type tag, a channel index (`machine`), a blend mode, a time extent,
up to two input references (`seq1`/`seq2`, stored as identities) and an owned
nested strip list (`seqbase`).  Lists of strips model `ListBase` containers,
with list order standing for the linked-list order.

External collaborators that are declared but not defined in the translated
file (the DNA type constants, `SEQ_relation_is_effect_of_strip`,
`SEQ_effect_get_num_inputs`, `SEQ_render_is_muted`,
`SEQ_time_strip_intersects_frame`, and `blender::VectorSet`) are modelled
from the specification text; each such definition carries a comment saying
so.
-/

/-- Modelled from the spec: the closed set of type tags (§3).  The DNA
constants are external to the translated file; the spec distinguishes the
container type (`meta`), the sound type, a handful of media/generator types,
and effect subtypes.  `SEQ_effect_get_num_inputs` is likewise external, so an
effect subtype is modelled as carrying its input count directly (the spec
separates generator effects, consuming 0 inputs, from non-generator
effects consuming at least 1). -/
inductive SType where
  | meta
  | image
  | scene
  | movie
  | movieclip
  | mask
  | sound
  | text
  | color
  | effect (numInputs : Nat)
deriving DecidableEq, Repr

/-- The C test `(type & SEQ_TYPE_EFFECT) != 0`: whether the tag is an effect
subtype. -/
def isEffectType : SType → Bool
  | .effect _ => true
  | _ => false

/-- Modelled from the spec: `SEQ_effect_get_num_inputs` is external to the
translated file; the number of inputs an effect consumes is a function of the
type tag (0 for all non-effect tags). -/
def SEQ_effect_get_num_inputs : SType → Nat
  | .effect n => n
  | _ => 0

/-- The distinguished REPLACE blend mode (`SEQ_BLEND_REPLACE`); the numeric
value of the constant is external to the translated file, only its
distinguishedness matters. -/
def SEQ_BLEND_REPLACE : Nat := 1

/-- The flat attributes of a strip (everything except the owned nested
list).  `id` is the stable identity standing for the C pointer; `seq1`/`seq2`
reference other strips by identity. -/
structure SData where
  id : Nat
  name : List Char
  stype : SType
  machine : Int
  blend_mode : Nat
  startFrame : Int
  endFrame : Int
  seq1 : Option Nat
  seq2 : Option Nat
deriving DecidableEq, Repr

/-- A strip: flat attributes plus the owned nested strip list (`seqbase`),
which is nonempty only for container-type strips. -/
inductive Strip where
  | mk (data : SData) (seqbase : List Strip)

def Strip.data : Strip → SData
  | .mk d _ => d

def Strip.seqbase : Strip → List Strip
  | .mk _ sb => sb

@[simp] theorem Strip.data_mk (d : SData) (sb : List Strip) : (Strip.mk d sb).data = d := rfl

@[simp] theorem Strip.seqbase_mk (d : SData) (sb : List Strip) : (Strip.mk d sb).seqbase = sb := rfl

/-- Modelled from the spec: the time model is an external collaborator with
contract `intersectsFrame(scene, element, frame) -> bool` (§6); a strip
intersects a frame when the frame lies in its `[start, end)` extent (§4.4). -/
def SEQ_time_strip_intersects_frame (strip : Strip) (timeline_frame : Int) : Bool :=
  decide (strip.data.startFrame ≤ timeline_frame) && decide (timeline_frame < strip.data.endFrame)

/-- Modelled from the spec: the channel/mute model is an external collaborator
with contract `isMuted(channelSet, element) -> bool` (§6); the channel set is
per-container metadata describing which channels are muted (§3), modelled as
the list of muted channel indices. -/
def SEQ_render_is_muted (channels : List Int) (strip : Strip) : Bool :=
  channels.contains strip.data.machine

/-- Modelled from the spec: `blender::VectorSet` is external to the translated
file; it is an insertion-ordered duplicate-free set of handles (§4.2); `add`
is a no-op when the element is already present, otherwise it appends. -/
def vsAdd (strips : List Strip) (s : Strip) : List Strip :=
  if strips.any (fun t => t.data.id == s.data.id) then strips else strips ++ [s]

/-- Modelled from the spec: `VectorSet::remove_if` removes all elements
matching the predicate, preserving the relative order of the survivors
(§4.2). -/
def vsRemoveIf (strips : List Strip) (p : Strip → Bool) : List Strip :=
  strips.filter (fun s => !p s)

/-- Look a strip up by identity in a container scope (resolving a stored
reference back to the referenced strip; the spec guarantees references never
cross container scopes, §3). -/
def stripById (seqbase : List Strip) (i : Nat) : Option Strip :=
  seqbase.find? (fun s => s.data.id == i)

/-- The direct input references of a strip, as carried by an effect-type
strip (`seq1`/`seq2`). -/
def directInputs (s : Strip) : List Nat :=
  if isEffectType s.data.stype then s.data.seq1.toList ++ s.data.seq2.toList else []

/-- One-or-more-step reachability along input references, fuelled: from
identity `a`, follow the inputs of `a`'s strip in scope `g` and continue. -/
def reachFwd (g : List Strip) : Nat → Nat → Nat → Bool
  | 0, _, _ => false
  | fuel + 1, a, b =>
      (match stripById g a with
       | some s => directInputs s
       | none => []).any (fun y => y == b || reachFwd g fuel y b)

/-- Modelled from the spec: `SEQ_relation_is_effect_of_strip` is external to
the translated file; rule (b) of the render-necessity resolver reads "an
effect-type element whose input graph connects to `E` (directly or
transitively, via the Effect-Chain relation)" (§4.5b), so the relation holds
when `strip` is reachable from `effect` along one or more input-reference
steps within the container scope `g`. -/
def SEQ_relation_is_effect_of_strip (g : List Strip) (effect strip : Strip) : Bool :=
  (directInputs effect).any (fun y => y == strip.data.id || reachFwd g g.length y strip.data.id)

/-- `query_strips_at_frame`: all direct children of the container that
intersect the frame, in container order. -/
def query_strips_at_frame (seqbase : List Strip) (timeline_frame : Int) : List Strip :=
  seqbase.filter (fun strip => SEQ_time_strip_intersects_frame strip timeline_frame)

/-- `collection_filter_channel_up_to_incl`: remove every strip whose channel
exceeds `channel`. -/
def collection_filter_channel_up_to_incl (strips : List Strip) (channel : Int) : List Strip :=
  vsRemoveIf strips (fun strip => decide (strip.data.machine > channel))

/-- The scan loop of `must_render_strip`, with the running
`seq_have_effect_in_stack` flag; `g` is the container scope against which
input references are resolved. -/
def must_render_strip_go (g : List Strip) (strip : Strip) :
    List Strip → Bool → Bool
  | [], seq_have_effect_in_stack =>
      if isEffectType strip.data.stype && decide (SEQ_effect_get_num_inputs strip.data.stype ≠ 0) then
        true
      else if seq_have_effect_in_stack then false
      else true
  | strip_iter :: rest, seq_have_effect_in_stack =>
      if strip_iter.data.blend_mode == SEQ_BLEND_REPLACE
          && decide (strip.data.machine < strip_iter.data.machine) then
        false
      else if isEffectType strip_iter.data.stype
          && SEQ_relation_is_effect_of_strip g strip_iter strip then
        if decide (strip.data.machine ≥ strip_iter.data.machine) then true
        else must_render_strip_go g strip rest true
      else must_render_strip_go g strip rest seq_have_effect_in_stack

/-- `must_render_strip`: whether `strip` must be rendered, judged against the
working set `strips`. -/
def must_render_strip (g : List Strip) (strips : List Strip) (strip : Strip) : Bool :=
  must_render_strip_go g strip strips false

/-- `collection_filter_rendered_strips`: remove sound and muted strips, then
remove the strips that need not render, each judged against the
post-removal set. -/
def collection_filter_rendered_strips (g : List Strip) (strips : List Strip)
    (channels : List Int) : List Strip :=
  let strips1 := vsRemoveIf strips
    (fun strip => strip.data.stype == SType.sound || SEQ_render_is_muted channels strip)
  vsRemoveIf strips1 (fun strip => !must_render_strip g strips1 strip)

/-- `SEQ_query_rendered_strips`: strips at the frame, optionally capped at the
displayed channel, then filtered for render necessity.  The container
`seqbase` is also the scope against which input references are resolved. -/
def SEQ_query_rendered_strips (channels : List Int) (seqbase : List Strip)
    (timeline_frame : Int) (displayed_channel : Int) : List Strip :=
  let strips := query_strips_at_frame seqbase timeline_frame
  let strips := if displayed_channel ≠ 0 then
      collection_filter_channel_up_to_incl strips displayed_channel
    else strips
  collection_filter_rendered_strips seqbase strips channels

/-- `seq_for_each_recursive`: visit each strip in container order, invoking
the callback (which threads its own state, standing for `user_data`, and
returns `false` to stop); recurse into a META strip's nested list before
advancing to the next sibling; propagate a stop outward. -/
def seq_for_each_recursive {σ : Type} (callback : σ → Strip → σ × Bool) :
    List Strip → σ → σ × Bool
  | [], st => (st, true)
  | .mk d sb :: rest, st =>
      match callback st (.mk d sb) with
      | (st1, false) => (st1, false)
      | (st1, true) =>
          if d.stype == SType.meta then
            match seq_for_each_recursive callback sb st1 with
            | (st2, false) => (st2, false)
            | (st2, true) => seq_for_each_recursive callback rest st2
          else seq_for_each_recursive callback rest st1

/-- `SEQ_for_each_callback`: run the traversal, returning the callback's
final state. -/
def SEQ_for_each_callback {σ : Type} (callback : σ → Strip → σ × Bool)
    (seqbase : List Strip) (st : σ) : σ :=
  (seq_for_each_recursive callback seqbase st).1

/-- `query_all_strips_recursive`: for each strip, first collect a META
strip's nested list, then add the strip itself. -/
def query_all_strips_recursive : List Strip → List Strip → List Strip
  | [], strips => strips
  | .mk d sb :: rest, strips =>
      let strips := if d.stype == SType.meta then query_all_strips_recursive sb strips else strips
      query_all_strips_recursive rest (vsAdd strips (.mk d sb))

/-- `SEQ_query_all_strips_recursive`. -/
def SEQ_query_all_strips_recursive (seqbase : List Strip) : List Strip :=
  query_all_strips_recursive seqbase []

/-- `SEQ_get_sequence_by_name`: scan the container in order; on a name match
return the strip; otherwise, when `recursive` is set and the strip owns a
nonempty nested list, search it (recursively) before moving to the next
sibling; `none` when nothing matches. -/
def SEQ_get_sequence_by_name : List Strip → List Char → Bool → Option Strip
  | [], _, _ => none
  | .mk d sb :: rest, name, recursive =>
      if d.name == name then some (.mk d sb)
      else if recursive && !sb.isEmpty then
        match SEQ_get_sequence_by_name sb name true with
        | some rseq => some rseq
        | none => SEQ_get_sequence_by_name rest name recursive
      else SEQ_get_sequence_by_name rest name recursive

/-- The canonical pre-order flattening that `seq_for_each_recursive` follows:
each sibling, then (for META strips) its nested strips, then the later
siblings. -/
def preorder : List Strip → List Strip
  | [] => []
  | .mk d sb :: rest =>
      .mk d sb :: ((if d.stype == SType.meta then preorder sb else []) ++ preorder rest)

/-- The pre-order flattening that descends into every nested list (the
name-lookup walk descends on any nonempty `seqbase`, not only META). -/
def preorderAll : List Strip → List Strip
  | [] => []
  | .mk d sb :: rest => .mk d sb :: (preorderAll sb ++ preorderAll rest)

/-- The canonical post-order flattening: for each sibling, first (for META
strips) its nested strips, then the sibling itself, then the later
siblings. -/
def postorder : List Strip → List Strip
  | [] => []
  | .mk d sb :: rest =>
      (if d.stype == SType.meta then postorder sb else []) ++ .mk d sb :: postorder rest

/-- The number of occurrences of identity `i` in a strip forest, counting
nested strips of META strips (the scope walked by the traversal engine). -/
def treeCount (i : Nat) : List Strip → Nat
  | [] => 0
  | .mk d sb :: rest =>
      (if d.id == i then 1 else 0)
        + (if d.stype == SType.meta then treeCount i sb else 0)
        + treeCount i rest

/-- Visits of a walk truncated at the first element on which the decision
function says stop: that element is still visited, nothing after it is. -/
def takeUntilStop (d : Strip → Bool) : List Strip → List Strip
  | [] => []
  | s :: rest => if d s then s :: takeUntilStop d rest else [s]

/-- An induction principle for strip forests, following the recursion shape
of the container tree. -/
theorem forest_induction (P : List Strip → Prop) (hnil : P [])
    (hcons : ∀ (d : SData) (sb rest : List Strip), P sb → P rest → P (.mk d sb :: rest)) :
    ∀ l, P l
  | [] => hnil
  | .mk d sb :: rest =>
      hcons d sb rest (forest_induction P hnil hcons sb) (forest_induction P hnil hcons rest)

/-- Scenario strip X: channel 1, image type, extent [0, 100). -/
def cX : Strip := .mk ⟨1, ['X'], .image, 1, 0, 0, 100, none, none⟩ []

/-- Scenario strip Y: channel 2, single-input effect consuming X, extent [0, 100). -/
def cY : Strip := .mk ⟨2, ['Y'], .effect 1, 2, 0, 0, 100, some 1, none⟩ []

/-- C3: for a container holding exactly X (channel 1, image) and Y (channel
2, effect with input X), both intersecting frame 10, with no mutes and no
channel ceiling, the rendered-strips query at frame 10 returns exactly {Y}. -/
theorem rendered_strips_scenario_xy :
    SEQ_query_rendered_strips [] [cX, cY] 10 0 = [cY] := by
  rfl

/-- A lone base strip on channel 5 (above channel 0), used to show channels
above 0 survive when the displayed channel is 0. -/
def cHigh : Strip := .mk ⟨6, ['H'], .image, 5, 0, 0, 100, none, none⟩ []

/-- C10: passing 0 as the displayed channel skips the channel-ceiling step
entirely (so strips on channels above 0 can appear in the result), while any
nonzero displayed channel removes exactly the strips whose channel exceeds it
before the necessity filter runs. -/
theorem displayed_channel_zero_disables_ceiling (channels : List Int)
    (seqbase : List Strip) (frame dc : Int) :
    (SEQ_query_rendered_strips channels seqbase frame dc
      = collection_filter_rendered_strips seqbase
          (if dc = 0 then query_strips_at_frame seqbase frame
           else (query_strips_at_frame seqbase frame).filter
              (fun s => !decide (s.data.machine > dc)))
          channels)
    ∧ (∀ strips : List Strip, ∀ s : Strip,
        s ∈ collection_filter_channel_up_to_incl strips dc
          ↔ s ∈ strips ∧ ¬(s.data.machine > dc))
    ∧ cHigh ∈ SEQ_query_rendered_strips [] [cHigh] 10 0 := by
  refine ⟨?_, ?_, ?_⟩
  · by_cases h : dc = 0 <;>
      simp [SEQ_query_rendered_strips, h, collection_filter_channel_up_to_incl, vsRemoveIf]
  · intro strips s
    simp [collection_filter_channel_up_to_incl, vsRemoveIf, List.mem_filter]
  · have h : SEQ_query_rendered_strips [] [cHigh] 10 0 = [cHigh] := rfl
    rw [h]
    exact List.mem_singleton.mpr rfl

/-- Counterexample strip F: an effect (channel 1, blend 0) whose input is E. -/
def cF : Strip := .mk ⟨1, ['F'], .effect 1, 1, 0, 0, 100, some 3, none⟩ []

/-- Counterexample strip R: image on channel 5 with REPLACE blend mode. -/
def cR : Strip := .mk ⟨2, ['R'], .image, 5, SEQ_BLEND_REPLACE, 0, 100, none, none⟩ []

/-- Counterexample strip E: image on channel 1, blend 0. -/
def cE : Strip := .mk ⟨3, ['E'], .image, 1, 0, 0, 100, none, none⟩ []

/-- C1 counterexample: in the working set {F, R, E} (in that insertion
order), R has blend-mode REPLACE on a channel strictly above E, yet E stays
in the necessity-filter result, because the single scan meets the effect F
connected to E (with E's channel ≥ F's) before it meets R: rule (a) does not
dominate rule (b) for elements scanned earlier. -/
theorem replace_not_dominant_cex :
    cR.data.blend_mode = SEQ_BLEND_REPLACE
    ∧ cE.data.machine < cR.data.machine
    ∧ cR ∈ [cF, cR, cE] ∧ cE ∈ [cF, cR, cE]
    ∧ SEQ_query_rendered_strips [] [cF, cR, cE] 10 0 = [cR, cE]
    ∧ cE ∈ SEQ_query_rendered_strips [] [cF, cR, cE] 10 0 := by
  refine ⟨rfl, by decide, by simp, by simp, rfl, ?_⟩
  have h : SEQ_query_rendered_strips [] [cF, cR, cE] 10 0 = [cR, cE] := rfl
  rw [h]
  simp

/-- Rule (b)'s firing condition for element `E` at a scanned element `r`:
`r` is an effect-type element connected to `E` with `E`'s channel ≥ `r`'s. -/
def ruleBTrigger (g : List Strip) (E r : Strip) : Prop :=
  isEffectType r.data.stype = true
    ∧ SEQ_relation_is_effect_of_strip g r E = true
    ∧ r.data.machine ≤ E.data.machine

theorem must_render_go_false_of_replace (g : List Strip) (E R : Strip)
    (l₁ l₂ : List Strip)
    (hR : R.data.blend_mode = SEQ_BLEND_REPLACE)
    (hch : E.data.machine < R.data.machine)
    (hpre : ∀ r ∈ l₁, ¬ ruleBTrigger g E r) :
    ∀ flag, must_render_strip_go g E (l₁ ++ R :: l₂) flag = false := by
  induction l₁ with
  | nil =>
      intro flag
      simp [must_render_strip_go, hR, hch]
  | cons r t ih =>
      intro flag
      have hr := hpre r (by simp)
      have ht : ∀ x ∈ t, ¬ ruleBTrigger g E x := fun x hx => hpre x (by simp [hx])
      show must_render_strip_go g E (r :: (t ++ R :: l₂)) flag = false
      simp only [must_render_strip_go]
      rcases Bool.eq_false_or_eq_true
          (r.data.blend_mode == SEQ_BLEND_REPLACE
            && decide (E.data.machine < r.data.machine)) with hrep | hrep
      · rw [if_pos hrep]
      · rw [if_neg (by simp [hrep])]
        rcases Bool.eq_false_or_eq_true
            (isEffectType r.data.stype && SEQ_relation_is_effect_of_strip g r E)
            with heff | heff
        · rw [if_pos heff]
          simp only [Bool.and_eq_true] at heff
          have hge : ¬ (r.data.machine ≤ E.data.machine) :=
            fun hle => hr ⟨heff.1, heff.2, hle⟩
          rw [if_neg (by simpa using hge)]
          exact ih ht true
        · rw [if_neg (by simp [heff])]
          exact ih ht flag

/-- C1 amended: a REPLACE element `R` strictly above `E` excludes `E` from
the necessity filter provided no rule-(b)-triggering effect for `E` precedes
`R` in the working set's insertion order; the occlusion rule dominates only
relative to that scan order, not unconditionally. -/
theorem replace_occludes_when_unchallenged_before (g : List Strip) (E R : Strip)
    (l₁ l₂ : List Strip)
    (hR : R.data.blend_mode = SEQ_BLEND_REPLACE)
    (hch : E.data.machine < R.data.machine)
    (hpre : ∀ r ∈ l₁, ¬ ruleBTrigger g E r) :
    must_render_strip g (l₁ ++ R :: l₂) E = false
    ∧ E ∉ vsRemoveIf (l₁ ++ R :: l₂)
        (fun s => !must_render_strip g (l₁ ++ R :: l₂) s) := by
  have h : must_render_strip g (l₁ ++ R :: l₂) E = false :=
    must_render_go_false_of_replace g E R l₁ l₂ hR hch hpre false
  refine ⟨h, ?_⟩
  intro hmem
  rw [vsRemoveIf, List.mem_filter] at hmem
  simp [h] at hmem

/-- Witness for the amended C1 theorem at a concrete input. -/
theorem replace_occludes_witness :
    cR.data.blend_mode = SEQ_BLEND_REPLACE
    ∧ cE.data.machine < cR.data.machine
    ∧ (∀ r ∈ ([] : List Strip), ¬ ruleBTrigger [] cE r)
    ∧ must_render_strip [] ([] ++ cR :: []) cE = false :=
  ⟨rfl, by decide, by simp,
    (replace_occludes_when_unchallenged_before [] cE cR [] [] rfl (by decide) (by simp)).1⟩

theorem must_render_go_true_of_trigger (g : List Strip) (E : Strip) :
    ∀ (l : List Strip) (flag : Bool),
      (∀ r ∈ l, ¬(r.data.blend_mode = SEQ_BLEND_REPLACE
          ∧ E.data.machine < r.data.machine)) →
      (∃ r ∈ l, ruleBTrigger g E r) →
      must_render_strip_go g E l flag = true := by
  intro l
  induction l with
  | nil => intro flag _ hex; simp at hex
  | cons a t ih =>
      intro flag hnorep hex
      have hna := hnorep a (by simp)
      have hnt : ∀ r ∈ t, ¬(r.data.blend_mode = SEQ_BLEND_REPLACE
          ∧ E.data.machine < r.data.machine) := fun r hr => hnorep r (by simp [hr])
      simp only [must_render_strip_go]
      have hrep : ¬ ((a.data.blend_mode == SEQ_BLEND_REPLACE
          && decide (E.data.machine < a.data.machine)) = true) := by
        intro hcon
        simp only [Bool.and_eq_true, beq_iff_eq, decide_eq_true_eq] at hcon
        exact hna hcon
      rw [if_neg hrep]
      rcases Bool.eq_false_or_eq_true
          (isEffectType a.data.stype && SEQ_relation_is_effect_of_strip g a E)
          with heff | heff
      · rw [if_pos heff]
        rcases Bool.eq_false_or_eq_true (decide (E.data.machine ≥ a.data.machine))
            with hge | hge
        · rw [if_pos hge]
        · rw [if_neg (by simp [hge])]
          apply ih true hnt
          rcases hex with ⟨r, hrmem, hrtrig⟩
          rcases List.mem_cons.mp hrmem with rfl | hrt
          · exact absurd hrtrig.2.2 (by simpa using hge)
          · exact ⟨r, hrt, hrtrig⟩
      · rw [if_neg (by simp [heff])]
        apply ih flag hnt
        rcases hex with ⟨r, hrmem, hrtrig⟩
        rcases List.mem_cons.mp hrmem with rfl | hrt
        · exfalso
          have h1 := hrtrig.1
          have h2 := hrtrig.2.1
          rw [h1, h2] at heff
          simp at heff
        · exact ⟨r, hrt, hrtrig⟩

/-- C2: when no REPLACE element above `E` occurs in the working set (so rule
(a) cannot occlude `E`), the presence of any effect-type element `R`
connected to `E` — directly or transitively along input references — with
`E`'s channel ≥ `R`'s makes `E` render, and `E` stays in the necessity
filter's result. -/
theorem effect_connection_renders (g : List Strip) (strips : List Strip)
    (E R : Strip)
    (hnorep : ∀ r ∈ strips, ¬(r.data.blend_mode = SEQ_BLEND_REPLACE
        ∧ E.data.machine < r.data.machine))
    (hR : R ∈ strips) (heff : isEffectType R.data.stype = true)
    (hconn : SEQ_relation_is_effect_of_strip g R E = true)
    (hch : R.data.machine ≤ E.data.machine) :
    must_render_strip g strips E = true
    ∧ (E ∈ strips →
        E ∈ vsRemoveIf strips (fun s => !must_render_strip g strips s)) := by
  have h : must_render_strip g strips E = true :=
    must_render_go_true_of_trigger g E strips false hnorep ⟨R, hR, heff, hconn, hch⟩
  refine ⟨h, fun hmem => ?_⟩
  rw [vsRemoveIf, List.mem_filter]
  simp [hmem, h]

/-- Base strip P (channel 2, image), input of the effect Q. -/
def cP : Strip := .mk ⟨4, ['P'], .image, 2, 0, 0, 100, none, none⟩ []

/-- Effect strip Q on the same channel 2 as P, consuming P. -/
def cQ : Strip := .mk ⟨5, ['Q'], .effect 1, 2, 0, 0, 100, some 4, none⟩ []

/-- Witness for C2 at a concrete input: P sits on the same channel as the
effect Q consuming it, so P renders. -/
theorem effect_connection_renders_witness :
    cQ ∈ [cP, cQ]
    ∧ SEQ_relation_is_effect_of_strip [cP, cQ] cQ cP = true
    ∧ must_render_strip [cP, cQ] [cP, cQ] cP = true :=
  ⟨by simp, by decide,
    (effect_connection_renders [cP, cQ] [cP, cQ] cP cQ (by decide) (by simp)
      (by decide) (by decide) (by decide)).1⟩

/-- Reference definition following the spec's words (§4.5): after removing
sound and muted elements, keep exactly the elements that must render when
judged against the entire post-removal set — the same whole set for every
element, with no earlier-judged elements removed. -/
def renderNecessityRef (g : List Strip) (strips : List Strip)
    (channels : List Int) : List Strip :=
  let working := strips.filter
    (fun s => !(s.data.stype == SType.sound || SEQ_render_is_muted channels s))
  working.filter (fun s => must_render_strip g working s)

/-- C5: the necessity filter equals the reference definition judging every
element against the entire post-removal working set, and membership in the
result depends only on the element and that whole set (hence not on any
judging order): an element is kept iff it survives the sound/mute removal
and must-render holds for it against the whole post-removal set. -/
theorem necessity_filter_whole_set (g : List Strip) (strips : List Strip)
    (channels : List Int) :
    collection_filter_rendered_strips g strips channels
      = renderNecessityRef g strips channels
    ∧ (∀ E, E ∈ collection_filter_rendered_strips g strips channels
        ↔ (E ∈ strips ∧ ¬(E.data.stype = SType.sound)
            ∧ ¬(SEQ_render_is_muted channels E = true)
            ∧ must_render_strip g
                (strips.filter (fun s => !(s.data.stype == SType.sound
                  || SEQ_render_is_muted channels s))) E = true)) := by
  constructor
  · rw [collection_filter_rendered_strips, renderNecessityRef]
    rw [vsRemoveIf, vsRemoveIf]
    apply List.filter_congr
    intro s _
    simp
  · intro E
    rw [collection_filter_rendered_strips]
    rw [vsRemoveIf, vsRemoveIf]
    simp only [List.mem_filter, Bool.not_not]
    constructor
    · rintro ⟨⟨hmem, hkeep⟩, hmr⟩
      simp only [Bool.not_eq_true', Bool.or_eq_false_iff, beq_eq_false_iff_ne] at hkeep
      exact ⟨hmem, hkeep.1, by simp [hkeep.2], hmr⟩
    · rintro ⟨hmem, hsound, hmuted, hmr⟩
      refine ⟨⟨hmem, ?_⟩, hmr⟩
      simp [hsound, Bool.not_eq_true] at *
      simp [hsound, hmuted]

theorem takeUntilStop_of_all (d : Strip → Bool) :
    ∀ xs : List Strip, xs.all d = true → takeUntilStop d xs = xs := by
  intro xs
  induction xs with
  | nil => intro _; rfl
  | cons x t ih =>
      intro h
      simp only [List.all_cons, Bool.and_eq_true] at h
      simp [takeUntilStop, h.1, ih h.2]

theorem takeUntilStop_append (d : Strip → Bool) :
    ∀ xs ys : List Strip,
      takeUntilStop d (xs ++ ys)
        = if xs.all d then xs ++ takeUntilStop d ys else takeUntilStop d xs := by
  intro xs ys
  induction xs with
  | nil => simp
  | cons x t ih =>
      rcases Bool.eq_false_or_eq_true (d x) with hx | hx
      · simp only [List.cons_append, takeUntilStop, hx, if_true, ih, List.all_cons,
          Bool.true_and]
        by_cases ht : t.all d = true <;> simp [ht, ih]
      · simp [takeUntilStop, hx, List.all_cons]

theorem for_each_log (d : Strip → Bool) :
    ∀ l : List Strip, ∀ st : List Strip,
      seq_for_each_recursive (fun st s => (st ++ [s], d s)) l st
        = (st ++ takeUntilStop d (preorder l), (preorder l).all d) := by
  intro l
  induction l using forest_induction with
  | hnil => intro st; simp [seq_for_each_recursive, preorder, takeUntilStop]
  | hcons d0 sb rest ihsb ihrest =>
      intro st
      rcases Bool.eq_false_or_eq_true (d (Strip.mk d0 sb)) with hd | hd
      · rcases Bool.eq_false_or_eq_true (d0.stype == SType.meta) with hm | hm
        · rcases Bool.eq_false_or_eq_true ((preorder sb).all d) with hall | hall
          · simp only [seq_for_each_recursive, hd, hm, if_true, ihsb, hall, ihrest,
              preorder]
            simp [takeUntilStop, hd, takeUntilStop_append, hall, hm,
              takeUntilStop_of_all d _ hall, List.all_append, List.append_assoc]
          · simp only [seq_for_each_recursive, hd, hm, if_true, ihsb, hall, preorder]
            simp [takeUntilStop, hd, takeUntilStop_append, hall, hm]
        · simp only [seq_for_each_recursive, hd, hm, Bool.false_eq_true, if_false,
            ihrest, preorder]
          simp [takeUntilStop, hd, hm]
      · simp only [seq_for_each_recursive, hd, preorder]
        simp [takeUntilStop, hd]

theorem preorder_countP (i : Nat) :
    ∀ l : List Strip,
      (preorder l).countP (fun s => s.data.id == i) = treeCount i l := by
  intro l
  induction l using forest_induction with
  | hnil => simp [preorder, treeCount]
  | hcons d0 sb rest ihsb ihrest =>
      rcases Bool.eq_false_or_eq_true (d0.stype == SType.meta) with hm | hm
      · simp only [preorder, treeCount, hm, if_true, List.countP_cons,
          List.countP_append, ihsb, ihrest]
        simp only [Strip.data_mk]
        by_cases hid : (d0.id == i) = true <;> simp [hid] <;> omega
      · simp only [preorder, treeCount, hm, Bool.false_eq_true, if_false,
          List.countP_cons, List.countP_append, ihsb, ihrest]
        simp only [Strip.data_mk, List.countP_nil]
        by_cases hid : (d0.id == i) = true <;> simp [hid] <;> omega

/-- C6: the traversal engine visits exactly the pre-order flattening of the
container forest, truncated at (and including) the first element on which
the callback signals stop — so with no stop every element is visited, each
tree occurrence exactly once, and after a stop nothing further anywhere in
the walk is visited. -/
theorem for_each_preorder_stop (l : List Strip) (d : Strip → Bool) :
    SEQ_for_each_callback (fun st s => (st ++ [s], d s)) l []
      = takeUntilStop d (preorder l)
    ∧ (∀ i, (preorder l).countP (fun s => s.data.id == i) = treeCount i l) := by
  constructor
  · rw [SEQ_for_each_callback, for_each_log d l []]
    simp
  · intro i
    exact preorder_countP i l

theorem postorder_countP (i : Nat) :
    ∀ l : List Strip,
      (postorder l).countP (fun s => s.data.id == i) = treeCount i l := by
  intro l
  induction l using forest_induction with
  | hnil => simp [postorder, treeCount]
  | hcons d0 sb rest ihsb ihrest =>
      rcases Bool.eq_false_or_eq_true (d0.stype == SType.meta) with hm | hm
      · simp only [postorder, treeCount, hm, if_true, List.countP_cons,
          List.countP_append, ihsb, ihrest]
        simp only [Strip.data_mk]
        by_cases hid : (d0.id == i) = true <;> simp [hid] <;> omega
      · simp only [postorder, treeCount, hm, Bool.false_eq_true, if_false,
          List.countP_cons, List.countP_append, ihsb, ihrest]
        simp only [Strip.data_mk, List.countP_nil]
        by_cases hid : (d0.id == i) = true <;> simp [hid] <;> omega

theorem vsAdd_fresh (strips : List Strip) (s : Strip)
    (h : s.data.id ∉ strips.map (fun t => t.data.id)) :
    vsAdd strips s = strips ++ [s] := by
  rw [vsAdd, if_neg]
  intro hcon
  rcases List.any_eq_true.mp hcon with ⟨t, htmem, hteq⟩
  exact h (List.mem_map.mpr ⟨t, htmem, beq_iff_eq.mp hteq⟩)

theorem query_all_acc :
    ∀ l : List Strip, ∀ acc : List Strip,
      ((postorder l).map (fun s => s.data.id)).Nodup →
      (∀ s ∈ postorder l, s.data.id ∉ acc.map (fun t => t.data.id)) →
      query_all_strips_recursive l acc = acc ++ postorder l := by
  intro l
  induction l using forest_induction with
  | hnil => intro acc _ _; simp [query_all_strips_recursive, postorder]
  | hcons d0 sb rest ihsb ihrest =>
      intro acc hnd hdisj
      rcases Bool.eq_false_or_eq_true (d0.stype == SType.meta) with hm | hm
      · have hpost : postorder (Strip.mk d0 sb :: rest)
            = postorder sb ++ Strip.mk d0 sb :: postorder rest := by
          simp [postorder, hm]
        rw [hpost] at hnd hdisj
        rw [List.map_append] at hnd
        obtain ⟨hnd1, hnd2, hdisj12⟩ := List.nodup_append.mp hnd
        rw [List.map_cons, List.nodup_cons] at hnd2
        have h1 : query_all_strips_recursive sb acc = acc ++ postorder sb :=
          ihsb acc hnd1 (fun s hs => hdisj s (List.mem_append_left _ hs))
        have hnodeacc : (Strip.mk d0 sb).data.id ∉ acc.map (fun t => t.data.id) :=
          hdisj _ (List.mem_append_right _ (List.mem_cons_self _ _))
        have hnodesb : (Strip.mk d0 sb).data.id ∉ (postorder sb).map (fun t => t.data.id) := by
          intro hcon
          exact hdisj12 hcon (List.mem_cons_self _ _)
        have h2 : vsAdd (acc ++ postorder sb) (Strip.mk d0 sb)
            = (acc ++ postorder sb) ++ [Strip.mk d0 sb] := by
          apply vsAdd_fresh
          rw [List.map_append]
          intro hcon
          rcases List.mem_append.mp hcon with hc | hc
          · exact hnodeacc hc
          · exact hnodesb hc
        have h3 : query_all_strips_recursive rest
              ((acc ++ postorder sb) ++ [Strip.mk d0 sb])
            = ((acc ++ postorder sb) ++ [Strip.mk d0 sb]) ++ postorder rest := by
          apply ihrest _ hnd2.2
          intro s hs
          rw [List.map_append, List.map_append]
          intro hcon
          rcases List.mem_append.mp hcon with hc | hc
          · rcases List.mem_append.mp hc with hc2 | hc2
            · exact hdisj s (List.mem_append_right _ (List.mem_cons_of_mem _ hs)) hc2
            · exact hdisj12 hc2 (List.mem_cons_of_mem _ (List.mem_map_of_mem _ hs))
          · rw [List.map_singleton, List.mem_singleton] at hc
            exact hnd2.1 (hc ▸ List.mem_map_of_mem _ hs)
        simp only [query_all_strips_recursive, hm, if_true, h1, h2, h3, hpost]
        simp [List.append_assoc]
      · have hpost : postorder (Strip.mk d0 sb :: rest)
            = Strip.mk d0 sb :: postorder rest := by
          simp [postorder, hm]
        rw [hpost] at hnd hdisj
        rw [List.map_cons, List.nodup_cons] at hnd
        have hnodeacc : (Strip.mk d0 sb).data.id ∉ acc.map (fun t => t.data.id) :=
          hdisj _ (List.mem_cons_self _ _)
        have h2 : vsAdd acc (Strip.mk d0 sb) = acc ++ [Strip.mk d0 sb] :=
          vsAdd_fresh _ _ hnodeacc
        have h3 : query_all_strips_recursive rest (acc ++ [Strip.mk d0 sb])
            = (acc ++ [Strip.mk d0 sb]) ++ postorder rest := by
          apply ihrest _ hnd.2
          intro s hs
          rw [List.map_append]
          intro hcon
          rcases List.mem_append.mp hcon with hc | hc
          · exact hdisj s (List.mem_cons_of_mem _ hs) hc
          · rw [List.map_singleton, List.mem_singleton] at hc
            exact hnd.1 (hc ▸ List.mem_map_of_mem _ hs)
        simp only [query_all_strips_recursive, hm, Bool.false_eq_true, if_false, h2, h3,
          hpost]
        simp [List.append_assoc]

theorem postorder_infix :
    ∀ l : List Strip, ∀ (d0 : SData) (sb : List Strip),
      Strip.mk d0 sb ∈ postorder l → d0.stype = SType.meta →
      ∃ pre post, postorder l = pre ++ postorder sb ++ Strip.mk d0 sb :: post := by
  intro l
  induction l using forest_induction with
  | hnil => intro d0 sb hmem _; simp [postorder] at hmem
  | hcons d1 sb1 rest ihsb ihrest =>
      intro d0 sb hmem hmeta
      rcases Bool.eq_false_or_eq_true (d1.stype == SType.meta) with hm | hm
      · have hpost : postorder (Strip.mk d1 sb1 :: rest)
            = postorder sb1 ++ Strip.mk d1 sb1 :: postorder rest := by
          simp [postorder, hm]
        rw [hpost] at hmem ⊢
        rcases List.mem_append.mp hmem with hc | hc
        · rcases ihsb d0 sb hc hmeta with ⟨pre, post, heq⟩
          exact ⟨pre, post ++ Strip.mk d1 sb1 :: postorder rest, by
            rw [heq]; simp [List.append_assoc]⟩
        · rcases List.mem_cons.mp hc with heq | hc2
          · obtain ⟨hd, hsb⟩ := Strip.mk.inj heq.symm
            subst hd hsb
            exact ⟨[], postorder rest, by simp⟩
          · rcases ihrest d0 sb hc2 hmeta with ⟨pre, post, heq⟩
            exact ⟨postorder sb1 ++ Strip.mk d1 sb1 :: pre, post, by
              rw [heq]; simp [List.append_assoc]⟩
      · have hpost : postorder (Strip.mk d1 sb1 :: rest)
            = Strip.mk d1 sb1 :: postorder rest := by
          simp [postorder, hm]
        rw [hpost] at hmem ⊢
        rcases List.mem_cons.mp hmem with heq | hc2
        · obtain ⟨hd, hsb⟩ := Strip.mk.inj heq
          exfalso
          rw [← hd] at hm
          rw [hmeta] at hm
          simp at hm
        · rcases ihrest d0 sb hc2 hmeta with ⟨pre, post, heq⟩
          exact ⟨Strip.mk d1 sb1 :: pre, post, by rw [heq]; simp⟩

/-- C7: under distinct identities (C pointers are distinct), the recursive
enumeration returns exactly the canonical post-order flattening — every tree
occurrence exactly once, and for every container-type element the whole
nested flattening appears immediately before the element itself. -/
theorem query_all_strips_postorder (l : List Strip)
    (h : ((postorder l).map (fun s => s.data.id)).Nodup) :
    SEQ_query_all_strips_recursive l = postorder l
    ∧ (∀ i, (postorder l).countP (fun s => s.data.id == i) = treeCount i l)
    ∧ (∀ (d0 : SData) (sb : List Strip),
        Strip.mk d0 sb ∈ postorder l → d0.stype = SType.meta →
        ∃ pre post, postorder l = pre ++ postorder sb ++ Strip.mk d0 sb :: post) := by
  refine ⟨?_, fun i => postorder_countP i l, fun d0 sb => postorder_infix l d0 sb⟩
  rw [SEQ_query_all_strips_recursive, query_all_acc l [] h (by simp)]
  simp

/-- Nested strip inside the concrete META container. -/
def cA : Strip := .mk ⟨11, ['A'], .image, 1, 0, 0, 100, none, none⟩ []

/-- A concrete META container strip holding `cA`. -/
def cM : Strip := .mk ⟨10, ['M'], .meta, 1, 0, 0, 100, none, none⟩ [cA]

/-- A plain sibling after the META container. -/
def cB : Strip := .mk ⟨12, ['B'], .image, 2, 0, 0, 100, none, none⟩ []

/-- A small concrete container forest: a META strip holding one nested
strip, followed by a plain sibling. -/
def ctree : List Strip := [cM, cB]

theorem postorder_ctree : postorder ctree = [cA, cM, cB] := by
  simp [ctree, cM, cA, cB, postorder]

/-- Witness for C7 at a concrete input. -/
theorem query_all_strips_postorder_witness :
    ((postorder ctree).map (fun s => s.data.id)).Nodup
    ∧ SEQ_query_all_strips_recursive ctree = postorder ctree :=
  ⟨by rw [postorder_ctree]; decide,
    (query_all_strips_postorder ctree (by rw [postorder_ctree]; decide)).1⟩

/-- C4 amended: name lookup is a single depth-first scan: each child is
tested and — when `recursive` is set — its subtree is searched immediately
afterwards, before the next sibling is tested; the result is the first match
of that interleaved pre-order walk (direct children are not exhausted
first), and `none` exactly when no element in the searched scope matches. -/
theorem find_by_name_preorder_dfs (l : List Strip) (name : List Char) :
    SEQ_get_sequence_by_name l name true
      = (preorderAll l).find? (fun s => s.data.name == name)
    ∧ SEQ_get_sequence_by_name l name false
      = l.find? (fun s => s.data.name == name) := by
  constructor
  · induction l using forest_induction with
    | hnil => simp [SEQ_get_sequence_by_name, preorderAll]
    | hcons d0 sb rest ihsb ihrest =>
        have hpre : preorderAll (Strip.mk d0 sb :: rest)
            = Strip.mk d0 sb :: (preorderAll sb ++ preorderAll rest) := by
          simp [preorderAll]
        rw [hpre, List.find?_cons]
        rcases Bool.eq_false_or_eq_true (d0.name == name) with hn | hn
        · simp only [SEQ_get_sequence_by_name, hn, if_true]
          simp [hn]
        · simp only [SEQ_get_sequence_by_name, hn, Bool.false_eq_true, if_false,
            Bool.true_and]
          simp only [Strip.data_mk, hn]
          rw [List.find?_append, ← ihsb, ← ihrest]
          by_cases hemp : sb.isEmpty = true
          · have hsbnil : sb = [] := by
              cases sb
              · rfl
              · simp [List.isEmpty] at hemp
            subst hsbnil
            simp [SEQ_get_sequence_by_name]
          · have hne : (!sb.isEmpty) = true := by
              simp only [Bool.not_eq_true']
              simpa using hemp
            rw [if_pos hne]
            rcases hfind : SEQ_get_sequence_by_name sb name true with _ | r
            · simp [Option.or]
            · simp [Option.or]
  · induction l with
    | nil => simp [SEQ_get_sequence_by_name]
    | cons x rest ih =>
        rcases x with ⟨d0, sb⟩
        rw [List.find?_cons]
        rcases Bool.eq_false_or_eq_true (d0.name == name) with hn | hn
        · simp only [SEQ_get_sequence_by_name, hn, if_true]
          simp [hn]
        · simp only [SEQ_get_sequence_by_name, hn, Bool.false_eq_true, if_false,
            Bool.false_and, ih]
          simp only [Strip.data_mk, hn]

/-- Nested strip named "x" inside the META container, found first by the
interleaved walk. -/
def cBx : Strip := .mk ⟨21, ['x'], .image, 1, 0, 0, 100, none, none⟩ []

/-- META container named "m" holding the nested "x". -/
def cM2 : Strip := .mk ⟨20, ['m'], .meta, 1, 0, 0, 100, none, none⟩ [cBx]

/-- Direct child named "x", scanned after the META container. -/
def cCx : Strip := .mk ⟨22, ['x'], .image, 2, 0, 0, 100, none, none⟩ []

/-- C4 counterexample: a direct child named "x" exists, yet the recursive
lookup returns the strip named "x" nested inside an earlier sibling's
container — direct children are not searched first. -/
theorem find_by_name_prefers_nested_cex :
    SEQ_get_sequence_by_name [cM2, cCx] ['x'] true = some cBx
    ∧ cCx ∈ [cM2, cCx]
    ∧ cCx.data.name = ['x']
    ∧ SEQ_get_sequence_by_name [cM2, cCx] ['x'] true ≠ some cCx := by
  have h : SEQ_get_sequence_by_name [cM2, cCx] ['x'] true = some cBx := by
    simp [SEQ_get_sequence_by_name, cM2, cBx, cCx]
  refine ⟨h, by simp, rfl, ?_⟩
  rw [h]
  intro hcon
  have heq : cBx = cCx := Option.some.inj hcon
  simp [cBx, cCx, Strip.mk.injEq] at heq

/-- Modelled from the spec: `%03d` of the C standard library's `snprintf` —
the counter zero-padded to (at least) three digits (§4.7
"zero-padded(counter++)"). -/
def pad3 (n : Nat) : List Char :=
  if n < 10 then '0' :: '0' :: Nat.toDigits 10 n
  else if n < 100 then '0' :: Nat.toDigits 10 n
  else Nat.toDigits 10 n

/-- Modelled from the spec: the C standard library's `atoi` on the recovered
suffix — the numeric counter is read off the leading decimal digits, 0 when
there are none (§4.7 "numeric counter recovered from it"). -/
def atoiNat (s : List Char) : Nat :=
  (s.takeWhile (fun c => c.isDigit)).foldl (fun a c => a * 10 + (c.toNat - 48)) 0

/-- Modelled from the spec: `strrchr(name, '.')` splitting — the base name
before the last dot together with the suffix after it, `none` when the name
has no dot (§4.7 "suffix of the form .NNN stripped"). -/
def splitAtLastDot : List Char → Option (List Char × List Char)
  | [] => none
  | c :: rest =>
      match splitAtLastDot rest with
      | some (b, suf) => some (c :: b, suf)
      | none => if c == '.' then some ([], rest) else none

/-- The `SeqUniqueInfo` context threaded through the collision scans:
identity of the strip being renamed, stripped base name (`name_src`),
current candidate (`name_dest`), running counter and retry flag. -/
structure SeqUniqueInfo where
  seqId : Nat
  name_src : List Char
  name_dest : List Char
  count : Nat
  matched : Bool
deriving Repr

/-- `seqbase_unique_name`: scan one sibling scope; every sibling other than
the renamed strip whose name equals the current candidate rewrites the
candidate to `name_src` (clipped to `SEQ_NAME_MAXSTR - 4 - 1 - 2 = 57`
characters) plus a dot plus the zero-padded counter, bumps the counter and
marks a rescan. -/
def seqbase_unique_name : List Strip → SeqUniqueInfo → SeqUniqueInfo
  | [], sui => sui
  | s :: rest, sui =>
      let sui :=
        if sui.seqId != s.data.id && (sui.name_dest == s.data.name) then
          { sui with name_dest := sui.name_src.take 57 ++ '.' :: pad3 sui.count,
                     count := sui.count + 1,
                     matched := true }
        else sui
      seqbase_unique_name rest sui

/-- `seqbase_unique_name_recursive_fn`: traversal callback running the
collision scan on each strip's nested scope (when nonempty); never stops. -/
def seqbase_unique_name_recursive_fn (sui : SeqUniqueInfo) (s : Strip) :
    SeqUniqueInfo × Bool :=
  (if !s.seqbase.isEmpty then seqbase_unique_name s.seqbase sui else sui, true)

/-- One round of the `while (sui.match)` loop, fuelled: reset the flag, scan
the top scope, scan every nested scope via the traversal engine, repeat
while a collision was found. -/
def uniqueNameLoop (seqbasep : List Strip) : Nat → SeqUniqueInfo → SeqUniqueInfo
  | 0, sui => sui
  | fuel + 1, sui =>
      if sui.matched then
        let sui := { sui with matched := false }
        let sui := seqbase_unique_name seqbasep sui
        let sui := SEQ_for_each_callback seqbase_unique_name_recursive_fn seqbasep sui
        uniqueNameLoop seqbasep fuel sui
      else sui

/-- Total number of strips in a forest, nested scopes included. -/
def stripTotal (l : List Strip) : Nat := (preorderAll l).length

/-- `SEQ_sequence_base_unique_name_recursive`: initialise the context from
the strip's name (suffix stripped into `name_src`, counter recovered from a
nonempty suffix, else 1), loop until a full scan finds no collision, and
commit the final candidate.  The `while` loop is modelled with fuel
`stripTotal + 2`: candidates are strictly increasing, each existing name can
match at most one candidate, so at most one rescan per strip is ever needed.
The final `SEQ_edit_sequence_name_set` commit is an external collaborator
(§6 rename propagation); the committed name — the loop's final `name_dest` —
is returned. -/
def SEQ_sequence_base_unique_name_recursive (seqbasep : List Strip)
    (seq : Strip) : List Char :=
  let src := seq.data.name
  let stripped :=
    match splitAtLastDot src with
    | none => (src, 1)
    | some (b, suf) => (b, if suf.isEmpty then 1 else atoiNat suf + 1)
  let sui : SeqUniqueInfo :=
    { seqId := seq.data.id, name_src := stripped.1, name_dest := src,
      count := stripped.2, matched := true }
  (uniqueNameLoop seqbasep (stripTotal seqbasep + 2) sui).name_dest

theorem splitAtLastDot_no_dot :
    ∀ s : List Char, ('.' : Char) ∉ s → splitAtLastDot s = none := by
  intro s
  induction s with
  | nil => intro _; rfl
  | cons c rest ih =>
      intro h
      have hc : ¬ (c = '.') := fun hcon => h (by simp [hcon])
      have hr : splitAtLastDot rest = none := ih (fun hcon => h (by simp [hcon]))
      simp [splitAtLastDot, hr, hc]

/-- A flat strip with a given identity and name, used in the naming
scenarios. -/
def nStrip (i : Nat) (nm : List Char) : Strip :=
  .mk ⟨i, nm, .image, 1, 0, 0, 100, none, none⟩ []

theorem dotted_append_ne_of_ne (base x y : List Char) (h : x ≠ y) :
    (base ++ '.' :: x == base ++ '.' :: y) = false := by
  simp only [beq_eq_false_iff_ne]
  intro hcon
  exact h (List.cons.inj (List.append_cancel_left hcon)).2

theorem clipped_ne_base (base x : List Char) (hdot : ('.' : Char) ∉ base) :
    (base.take 57 ++ '.' :: x == base) = false := by
  simp only [beq_eq_false_iff_ne]
  intro hcon
  exact hdot (hcon ▸ List.mem_append_right _ (List.mem_cons_self _ _))

theorem unique_name_first_collision (base : List Char)
    (hdot : ('.' : Char) ∉ base) :
    SEQ_sequence_base_unique_name_recursive
        [nStrip 1 base, nStrip 2 base] (nStrip 2 base)
      = base.take 57 ++ '.' :: pad3 1 := by
  have hsplit : splitAtLastDot base = none := splitAtLastDot_no_dot base hdot
  have h1 : (base.take 57 ++ '.' :: pad3 1 == base) = false :=
    clipped_ne_base base (pad3 1) hdot
  simp [SEQ_sequence_base_unique_name_recursive, hsplit, stripTotal, preorderAll,
    nStrip, uniqueNameLoop, seqbase_unique_name, SEQ_for_each_callback,
    seq_for_each_recursive, seqbase_unique_name_recursive_fn, h1]

theorem unique_name_second_collision (base : List Char)
    (hdot : ('.' : Char) ∉ base) :
    SEQ_sequence_base_unique_name_recursive
        [nStrip 1 base, nStrip 3 (base.take 57 ++ '.' :: pad3 1), nStrip 2 base]
        (nStrip 2 base)
      = base.take 57 ++ '.' :: pad3 2 := by
  have hsplit : splitAtLastDot base = none := splitAtLastDot_no_dot base hdot
  have h1 : (base.take 57 ++ '.' :: pad3 1 == base) = false :=
    clipped_ne_base base (pad3 1) hdot
  have h2 : (base.take 57 ++ '.' :: pad3 2 == base) = false :=
    clipped_ne_base base (pad3 2) hdot
  have h3 : (base.take 57 ++ '.' :: pad3 2 == base.take 57 ++ '.' :: pad3 1) = false :=
    dotted_append_ne_of_ne (base.take 57) _ _ (by decide)
  have h4 : (base.take 57 ++ '.' :: pad3 1 == base.take 57 ++ '.' :: pad3 2) = false :=
    dotted_append_ne_of_ne (base.take 57) _ _ (by decide)
  simp [SEQ_sequence_base_unique_name_recursive, hsplit, stripTotal, preorderAll,
    nStrip, uniqueNameLoop, seqbase_unique_name, SEQ_for_each_callback,
    seq_for_each_recursive, seqbase_unique_name_recursive_fn, h1, h2, h3, h4]

/-- C8 amended: for a strip whose dot-free name `base`, colliding with
exactly one sibling bearing `base`, the resolver commits the `snprintf`-
clipped `base.take 57 ++ ".001"` (57 = SEQ_NAME_MAXSTR − 4 − 1 − 2), which
equals `base ++ ".001"` exactly when `base` has at most 57 characters; when a
sibling named `base.take 57 ++ ".001"` is also present, the committed name is
`base.take 57 ++ ".002"`. -/
theorem unique_name_roundtrip (base : List Char)
    (hdot : ('.' : Char) ∉ base) :
    (SEQ_sequence_base_unique_name_recursive
        [nStrip 1 base, nStrip 2 base] (nStrip 2 base)
      = base.take 57 ++ '.' :: pad3 1)
    ∧ (base.length ≤ 57 →
        SEQ_sequence_base_unique_name_recursive
            [nStrip 1 base, nStrip 2 base] (nStrip 2 base)
          = base ++ '.' :: pad3 1)
    ∧ (SEQ_sequence_base_unique_name_recursive
        [nStrip 1 base, nStrip 3 (base.take 57 ++ '.' :: pad3 1), nStrip 2 base]
        (nStrip 2 base)
      = base.take 57 ++ '.' :: pad3 2) := by
  refine ⟨unique_name_first_collision base hdot, ?_,
    unique_name_second_collision base hdot⟩
  intro hlen
  rw [unique_name_first_collision base hdot, List.take_of_length_le hlen]

/-- A dot-free 58-character base name; it fits the C name field (up to 61
characters after the 2-character prefix and the terminator) but exceeds the
57-character `snprintf` precision used when suffixing. -/
def longBase : List Char := List.replicate 58 'a'

/-- C8 counterexample: for the 58-character dot-free base, one collision
commits the clipped `longBase.take 57 ++ ".001"`, which is not
`longBase ++ ".001"` — the claim's committed name is wrong for dot-free
bases longer than 57 characters. -/
theorem unique_name_clip_cex :
    (('.' : Char) ∉ longBase)
    ∧ SEQ_sequence_base_unique_name_recursive
        [nStrip 1 longBase, nStrip 2 longBase] (nStrip 2 longBase)
      = longBase.take 57 ++ '.' :: pad3 1
    ∧ SEQ_sequence_base_unique_name_recursive
        [nStrip 1 longBase, nStrip 2 longBase] (nStrip 2 longBase)
      ≠ longBase ++ '.' :: pad3 1 := by
  have hdot : ('.' : Char) ∉ longBase := by decide
  refine ⟨hdot, unique_name_first_collision longBase hdot, ?_⟩
  rw [unique_name_first_collision longBase hdot]
  decide

/-- Witness for the amended C8 theorem at the concrete base name "Strip":
the committed name is "Strip.001". -/
theorem unique_name_roundtrip_witness :
    (('.' : Char) ∉ ['S', 't', 'r', 'i', 'p'])
    ∧ SEQ_sequence_base_unique_name_recursive
        [nStrip 1 ['S', 't', 'r', 'i', 'p'], nStrip 2 ['S', 't', 'r', 'i', 'p']]
        (nStrip 2 ['S', 't', 'r', 'i', 'p'])
      = ['S', 't', 'r', 'i', 'p', '.', '0', '0', '1'] := by
  refine ⟨by decide, ?_⟩
  have h := (unique_name_roundtrip ['S', 't', 'r', 'i', 'p'] (by decide)).1
  rw [h]
  decide

mutual
/-- `SEQ_query_strip_effect_chain`'s recursion: if the reference strip is
already collected, return (cycle guard); otherwise add it, follow its own
`seq1`/`seq2` inputs when it is an effect (resolving the stored reference in
the container scope, where the spec guarantees it lives), then scan the
container for strips referencing it.  The C recursion is modelled with fuel,
consumed once per guarded entry; every entry adds one uncollected strip, so
container-size fuel suffices. -/
def chainGo (seqbase : List Strip) : Nat → List Nat → Strip → List Nat
  | 0, strips, _ => strips
  | fuel + 1, strips, reference_strip =>
      if strips.contains reference_strip.data.id then strips
      else
        let strips1 := strips ++ [reference_strip.data.id]
        let strips2 :=
          if isEffectType reference_strip.data.stype then
            chainFollow seqbase fuel
              (chainFollow seqbase fuel strips1 reference_strip.data.seq1)
              reference_strip.data.seq2
          else strips1
        chainScan seqbase fuel strips2 reference_strip.data.id seqbase
termination_by fuel _ _ => (fuel, 0)

/-- Following one stored input reference (`if (reference_strip->seq1) { ...
recurse ... }`): resolve the identity in the container scope and recurse. -/
def chainFollow (seqbase : List Strip) : Nat → List Nat → Option Nat → List Nat
  | fuel, strips, some j =>
      match stripById seqbase j with
      | some s => chainGo seqbase fuel strips s
      | none => strips
  | _, strips, none => strips
termination_by fuel _ _ => (fuel, 1)

/-- The `LISTBASE_FOREACH` loop of `SEQ_query_strip_effect_chain`: recurse
into every container strip whose `seq1` or `seq2` references the current
strip. -/
def chainScan (seqbase : List Strip) : Nat → List Nat → Nat → List Strip → List Nat
  | _, strips, _, [] => strips
  | fuel, strips, refId, s :: rest =>
      let strips1 :=
        if s.data.seq1 == some refId || s.data.seq2 == some refId then
          chainGo seqbase fuel strips s
        else strips
      chainScan seqbase fuel strips1 refId rest
termination_by fuel _ _ l => (fuel, l.length + 2)
end

/-- `SEQ_query_strip_effect_chain`, with fuel fixed at container size + 1
(each guarded entry adds one uncollected strip, and only strips of the
container scope are ever reached beyond the seed). -/
def SEQ_query_strip_effect_chain (seqbase : List Strip) (strips : List Nat)
    (reference_strip : Strip) : List Nat :=
  chainGo seqbase (seqbase.length + 1) strips reference_strip

/-- One undirected step of the input-reference relation over identities in a
container scope: some effect strip of the scope with identity `a` has `b` as
a direct input, or vice versa. -/
def adjStep (seqbase : List Strip) (a b : Nat) : Prop :=
  (∃ s ∈ seqbase, s.data.id = a ∧ isEffectType s.data.stype = true
      ∧ (s.data.seq1 = some b ∨ s.data.seq2 = some b))
  ∨ (∃ s ∈ seqbase, s.data.id = b ∧ isEffectType s.data.stype = true
      ∧ (s.data.seq1 = some a ∨ s.data.seq2 = some a))

theorem contains_iff_mem_nat (l : List Nat) (a : Nat) : l.contains a = true ↔ a ∈ l := by
  simp

theorem chain_extends (sb : List Strip) :
    ∀ fuel : Nat,
      (∀ (strips : List Nat) (ref : Strip), strips <+: chainGo sb fuel strips ref)
      ∧ (∀ (strips : List Nat) (j : Option Nat), strips <+: chainFollow sb fuel strips j)
      ∧ (∀ (strips : List Nat) (refId : Nat) (l : List Strip),
          strips <+: chainScan sb fuel strips refId l) := by
  have hscan : ∀ fuel,
      (∀ (strips : List Nat) (ref : Strip), strips <+: chainGo sb fuel strips ref) →
      ∀ (strips : List Nat) (refId : Nat) (l : List Strip),
        strips <+: chainScan sb fuel strips refId l := by
    intro fuel hgo strips refId l
    induction l generalizing strips with
    | nil => simp [chainScan]
    | cons s rest ihl =>
        simp only [chainScan]
        rcases Bool.eq_false_or_eq_true
            (s.data.seq1 == some refId || s.data.seq2 == some refId) with ht | ht
        · rw [if_pos ht]
          exact List.IsPrefix.trans (hgo _ _) (ihl _)
        · rw [if_neg (by simp [ht])]
          exact ihl _
  intro fuel
  induction fuel with
  | zero =>
      have hgo : ∀ (strips : List Nat) (ref : Strip),
          strips <+: chainGo sb 0 strips ref := by
        intro strips ref; simp [chainGo]
      refine ⟨hgo, ?_, hscan 0 hgo⟩
      intro strips j
      rcases j with _ | j
      · simp [chainFollow]
      · simp only [chainFollow]
        rcases h : stripById sb j with _ | s
        · simp
        · exact hgo _ _
  | succ fuel ih =>
      have hfollow : ∀ (strips : List Nat) (j : Option Nat),
          strips <+: chainFollow sb fuel strips j := ih.2.1
      have hgo : ∀ (strips : List Nat) (ref : Strip),
          strips <+: chainGo sb (fuel + 1) strips ref := by
        intro strips ref
        simp only [chainGo]
        rcases Bool.eq_false_or_eq_true (strips.contains ref.data.id) with hc | hc
        · rw [if_pos hc]
        · rw [if_neg (fun hcon => Bool.false_ne_true (hc ▸ hcon))]
          refine List.IsPrefix.trans (List.prefix_append strips [ref.data.id]) ?_
          refine List.IsPrefix.trans ?_ (ih.2.2 _ _ _)
          rcases Bool.eq_false_or_eq_true (isEffectType ref.data.stype) with he | he
          · rw [if_pos he]
            exact List.IsPrefix.trans (hfollow _ _) (hfollow _ _)
          · rw [if_neg (by simp [he])]
      refine ⟨hgo, ?_, hscan (fuel + 1) hgo⟩
      intro strips j
      rcases j with _ | j
      · simp [chainFollow]
      · simp only [chainFollow]
        rcases h : stripById sb j with _ | s
        · simp
        · exact hgo _ _

theorem chainGo_mem (sb : List Strip) (fuel : Nat) (strips : List Nat) (ref : Strip)
    (hfuel : 1 ≤ fuel) : ref.data.id ∈ chainGo sb fuel strips ref := by
  rcases fuel with _ | fuel
  · omega
  · simp only [chainGo]
    rcases Bool.eq_false_or_eq_true (strips.contains ref.data.id) with hc | hc
    · rw [if_pos hc]
      exact (contains_iff_mem_nat _ _).mp hc
    · rw [if_neg (fun hcon => Bool.false_ne_true (hc ▸ hcon))]
      rcases Bool.eq_false_or_eq_true (isEffectType ref.data.stype) with he | he
      · rw [if_pos he]
        exact ((chain_extends sb fuel).2.2 _ _ _).subset
          (((chain_extends sb fuel).2.1 _ _).subset
            (((chain_extends sb fuel).2.1 _ _).subset (by simp)))
      · rw [if_neg (fun hcon => Bool.false_ne_true (he ▸ hcon))]
        exact ((chain_extends sb fuel).2.2 _ _ _).subset (by simp)

theorem chainScan_hits (sb : List Strip) (fuel : Nat) (refId : Nat)
    (hfuel : 1 ≤ fuel) :
    ∀ (l : List Strip) (strips : List Nat) (s : Strip), s ∈ l →
      (s.data.seq1 == some refId || s.data.seq2 == some refId) = true →
      s.data.id ∈ chainScan sb fuel strips refId l := by
  intro l
  induction l with
  | nil => intro strips s hs; simp at hs
  | cons a rest ihl =>
      intro strips s hs htrig
      rcases List.mem_cons.mp hs with rfl | hs2
      · simp only [chainScan]
        rw [if_pos htrig]
        exact ((chain_extends sb fuel).2.2 _ _ _).subset (chainGo_mem sb fuel _ _ hfuel)
      · simp only [chainScan]
        exact ihl _ s hs2 htrig

theorem chainGo_zero (sb : List Strip) (strips : List Nat) (ref : Strip) :
    chainGo sb 0 strips ref = strips := by
  simp [chainGo]

theorem chainFollow_zero (sb : List Strip) (strips : List Nat) (j : Option Nat) :
    chainFollow sb 0 strips j = strips := by
  rcases j with _ | j
  · simp [chainFollow]
  · simp only [chainFollow]
    rcases h : stripById sb j with _ | s
    · simp
    · simp [chainGo_zero]

theorem chainScan_zero (sb : List Strip) (refId : Nat) :
    ∀ (l : List Strip) (strips : List Nat), chainScan sb 0 strips refId l = strips := by
  intro l
  induction l with
  | nil => intro strips; simp [chainScan]
  | cons s rest ihl =>
      intro strips
      simp only [chainScan]
      rcases Bool.eq_false_or_eq_true
          (s.data.seq1 == some refId || s.data.seq2 == some refId) with ht | ht
      · rw [if_pos ht, chainGo_zero, ihl]
      · rw [if_neg (fun hcon => Bool.false_ne_true (ht ▸ hcon)), ihl]

theorem stripById_mem (sb : List Strip) (j : Nat) (s : Strip)
    (h : stripById sb j = some s) : s ∈ sb ∧ s.data.id = j := by
  refine ⟨List.mem_of_find?_eq_some h, ?_⟩
  have := List.find?_some h
  simpa using this

theorem chain_domain (sb : List Strip) :
    ∀ fuel : Nat,
      (∀ (strips : List Nat) (ref : Strip) (x : Nat), ref ∈ sb →
        x ∈ chainGo sb fuel strips ref →
        x ∈ strips ∨ x ∈ sb.map (fun s => s.data.id))
      ∧ (∀ (strips : List Nat) (j : Option Nat) (x : Nat),
        x ∈ chainFollow sb fuel strips j →
        x ∈ strips ∨ x ∈ sb.map (fun s => s.data.id))
      ∧ (∀ (strips : List Nat) (refId : Nat) (l : List Strip) (x : Nat), l ⊆ sb →
        x ∈ chainScan sb fuel strips refId l →
        x ∈ strips ∨ x ∈ sb.map (fun s => s.data.id)) := by
  intro fuel
  induction fuel with
  | zero =>
      refine ⟨?_, ?_, ?_⟩
      · intro strips ref x _ hx
        rw [chainGo_zero] at hx
        exact Or.inl hx
      · intro strips j x hx
        rw [chainFollow_zero] at hx
        exact Or.inl hx
      · intro strips refId l x _ hx
        rw [chainScan_zero] at hx
        exact Or.inl hx
  | succ fuel ih =>
      have hgo : ∀ (strips : List Nat) (ref : Strip) (x : Nat), ref ∈ sb →
          x ∈ chainGo sb (fuel + 1) strips ref →
          x ∈ strips ∨ x ∈ sb.map (fun s => s.data.id) := by
        intro strips ref x href hx
        simp only [chainGo] at hx
        rcases Bool.eq_false_or_eq_true (ref.data.stype |> isEffectType) with he | he
        all_goals {
          rcases Bool.eq_false_or_eq_true (strips.contains ref.data.id) with hc | hc
          · rw [if_pos hc] at hx
            exact Or.inl hx
          · rw [if_neg (fun hcon => Bool.false_ne_true (hc ▸ hcon))] at hx
            first
            | (rw [if_pos he] at hx
               rcases ih.2.2 _ _ _ _ (fun a ha => ha) hx with h2 | h2
               · rcases ih.2.1 _ _ _ h2 with h3 | h3
                 · rcases ih.2.1 _ _ _ h3 with h4 | h4
                   · rcases List.mem_append.mp h4 with h5 | h5
                     · exact Or.inl h5
                     · rw [List.mem_singleton] at h5
                       exact Or.inr (h5 ▸ List.mem_map_of_mem _ href)
                   · exact Or.inr h4
                 · exact Or.inr h3
               · exact Or.inr h2)
            | (rw [if_neg (fun hcon => Bool.false_ne_true (he ▸ hcon))] at hx
               rcases ih.2.2 _ _ _ _ (fun a ha => ha) hx with h2 | h2
               · rcases List.mem_append.mp h2 with h5 | h5
                 · exact Or.inl h5
                 · rw [List.mem_singleton] at h5
                   exact Or.inr (h5 ▸ List.mem_map_of_mem _ href)
               · exact Or.inr h2)
        }
      have hfollow : ∀ (strips : List Nat) (j : Option Nat) (x : Nat),
          x ∈ chainFollow sb (fuel + 1) strips j →
          x ∈ strips ∨ x ∈ sb.map (fun s => s.data.id) := by
        intro strips j x hx
        rcases j with _ | j
        · rw [chainFollow] at hx
          exact Or.inl hx
        · rw [chainFollow] at hx
          rcases h : stripById sb j with _ | s
          · rw [h] at hx
            exact Or.inl hx
          · rw [h] at hx
            exact hgo _ _ _ (stripById_mem sb j s h).1 hx
      refine ⟨hgo, hfollow, ?_⟩
      intro strips refId l
      induction l generalizing strips with
      | nil =>
          intro x _ hx
          rw [chainScan] at hx
          exact Or.inl hx
      | cons s rest ihl =>
          intro x hsub hx
          simp only [chainScan] at hx
          have hrest : rest ⊆ sb := fun a ha => hsub (List.mem_cons_of_mem _ ha)
          rcases Bool.eq_false_or_eq_true
              (s.data.seq1 == some refId || s.data.seq2 == some refId) with ht | ht
          · rw [if_pos ht] at hx
            rcases ihl _ x hrest hx with h2 | h2
            · exact hgo _ _ _ (hsub (List.mem_cons_self _ _)) h2
            · exact Or.inr h2
          · rw [if_neg (fun hcon => Bool.false_ne_true (ht ▸ hcon))] at hx
            exact ihl _ x hrest hx

theorem trigger_adjStep (sb : List Strip)
    (hwf : ∀ s ∈ sb, isEffectType s.data.stype = false →
      s.data.seq1 = none ∧ s.data.seq2 = none)
    (s : Strip) (hs : s ∈ sb) (refId : Nat)
    (ht : (s.data.seq1 == some refId || s.data.seq2 == some refId) = true) :
    adjStep sb refId s.data.id := by
  have htrig : s.data.seq1 = some refId ∨ s.data.seq2 = some refId := by
    simpa using ht
  have heff : isEffectType s.data.stype = true := by
    rcases Bool.eq_false_or_eq_true (isEffectType s.data.stype) with he | he
    · exact he
    · exfalso
      rcases htrig with h | h
      · rw [(hwf s hs he).1] at h
        exact Option.noConfusion h
      · rw [(hwf s hs he).2] at h
        exact Option.noConfusion h
  exact Or.inr ⟨s, hs, rfl, heff, htrig⟩

theorem chain_sound (sb : List Strip)
    (hwf : ∀ s ∈ sb, isEffectType s.data.stype = false →
      s.data.seq1 = none ∧ s.data.seq2 = none) :
    ∀ fuel : Nat,
      (∀ (strips : List Nat) (ref : Strip) (x : Nat), ref ∈ sb →
        x ∈ chainGo sb fuel strips ref →
        x ∈ strips ∨ Relation.ReflTransGen (adjStep sb) ref.data.id x)
      ∧ (∀ (strips : List Nat) (refS : Strip) (j : Option Nat) (x : Nat), refS ∈ sb →
        (j = refS.data.seq1 ∨ j = refS.data.seq2) →
        isEffectType refS.data.stype = true →
        x ∈ chainFollow sb fuel strips j →
        x ∈ strips ∨ Relation.ReflTransGen (adjStep sb) refS.data.id x)
      ∧ (∀ (strips : List Nat) (refId : Nat) (l : List Strip) (x : Nat), l ⊆ sb →
        x ∈ chainScan sb fuel strips refId l →
        x ∈ strips ∨ Relation.ReflTransGen (adjStep sb) refId x) := by
  intro fuel
  induction fuel with
  | zero =>
      refine ⟨?_, ?_, ?_⟩
      · intro strips ref x _ hx
        rw [chainGo_zero] at hx
        exact Or.inl hx
      · intro strips refS j x _ _ _ hx
        rw [chainFollow_zero] at hx
        exact Or.inl hx
      · intro strips refId l x _ hx
        rw [chainScan_zero] at hx
        exact Or.inl hx
  | succ fuel ih =>
      have hgo : ∀ (strips : List Nat) (ref : Strip) (x : Nat), ref ∈ sb →
          x ∈ chainGo sb (fuel + 1) strips ref →
          x ∈ strips ∨ Relation.ReflTransGen (adjStep sb) ref.data.id x := by
        intro strips ref x href hx
        simp only [chainGo] at hx
        rcases Bool.eq_false_or_eq_true (strips.contains ref.data.id) with hc | hc
        · rw [if_pos hc] at hx
          exact Or.inl hx
        · rw [if_neg (fun hcon => Bool.false_ne_true (hc ▸ hcon))] at hx
          have hstrips1 : ∀ y : Nat, y ∈ strips ++ [ref.data.id] →
              y ∈ strips ∨ Relation.ReflTransGen (adjStep sb) ref.data.id y := by
            intro y hy
            rcases List.mem_append.mp hy with h | h
            · exact Or.inl h
            · rw [List.mem_singleton] at h
              exact Or.inr (h ▸ Relation.ReflTransGen.refl)
          rcases ih.2.2 _ _ _ _ (fun a ha => ha) hx with h2 | h2
          · rcases Bool.eq_false_or_eq_true (isEffectType ref.data.stype) with he | he
            · rw [if_pos he] at h2
              rcases ih.2.1 _ ref _ _ href (Or.inr rfl) he h2 with h3 | h3
              · rcases ih.2.1 _ ref _ _ href (Or.inl rfl) he h3 with h4 | h4
                · exact hstrips1 x h4
                · exact Or.inr h4
              · exact Or.inr h3
            · rw [if_neg (fun hcon => Bool.false_ne_true (he ▸ hcon))] at h2
              exact hstrips1 x h2
          · exact Or.inr h2
      have hfollow : ∀ (strips : List Nat) (refS : Strip) (j : Option Nat) (x : Nat),
          refS ∈ sb → (j = refS.data.seq1 ∨ j = refS.data.seq2) →
          isEffectType refS.data.stype = true →
          x ∈ chainFollow sb (fuel + 1) strips j →
          x ∈ strips ∨ Relation.ReflTransGen (adjStep sb) refS.data.id x := by
        intro strips refS j x hrefS hj heff hx
        rcases j with _ | j
        · rw [chainFollow] at hx
          exact Or.inl hx
        · rw [chainFollow] at hx
          rcases h : stripById sb j with _ | s
          · rw [h] at hx
            exact Or.inl hx
          · rw [h] at hx
            obtain ⟨hsmem, hsid⟩ := stripById_mem sb j s h
            have hedge : adjStep sb refS.data.id s.data.id := by
              refine Or.inl ⟨refS, hrefS, rfl, heff, ?_⟩
              rcases hj with h1 | h1
              · exact Or.inl (by rw [← h1, hsid])
              · exact Or.inr (by rw [← h1, hsid])
            rcases hgo _ s _ hsmem hx with h2 | h2
            · exact Or.inl h2
            · exact Or.inr (Relation.ReflTransGen.head hedge h2)
      refine ⟨hgo, hfollow, ?_⟩
      intro strips refId l
      induction l generalizing strips with
      | nil =>
          intro x _ hx
          rw [chainScan] at hx
          exact Or.inl hx
      | cons s rest ihl =>
          intro x hsub hx
          simp only [chainScan] at hx
          have hrest : rest ⊆ sb := fun a ha => hsub (List.mem_cons_of_mem _ ha)
          have hsmem : s ∈ sb := hsub (List.mem_cons_self _ _)
          rcases Bool.eq_false_or_eq_true
              (s.data.seq1 == some refId || s.data.seq2 == some refId) with ht | ht
          · rw [if_pos ht] at hx
            rcases ihl _ x hrest hx with h2 | h2
            · rcases hgo _ s _ hsmem h2 with h3 | h3
              · exact Or.inl h3
              · exact Or.inr (Relation.ReflTransGen.head
                  (trigger_adjStep sb hwf s hsmem refId ht) h3)
            · exact Or.inr h2
          · rw [if_neg (fun hcon => Bool.false_ne_true (ht ▸ hcon))] at hx
            exact ihl _ x hrest hx

theorem not_mem_of_contains_false (l : List Nat) (a : Nat)
    (hc : l.contains a = false) : a ∉ l := by
  intro hmem
  rw [(contains_iff_mem_nat l a).mpr hmem] at hc
  exact absurd hc (by simp)

theorem sdiff_card_mono (U : Finset Nat) (A B : List Nat) (h : ∀ x ∈ A, x ∈ B) :
    (U \ B.toFinset).card ≤ (U \ A.toFinset).card := by
  apply Finset.card_le_card
  apply Finset.sdiff_subset_sdiff (le_refl U)
  intro x hx
  exact List.mem_toFinset.mpr (h x (List.mem_toFinset.mp hx))

theorem sdiff_card_step (U : Finset Nat) (strips : List Nat) (i : Nat)
    (hiU : i ∈ U) (hnot : i ∉ strips) :
    (U \ (strips ++ [i]).toFinset).card + 1 = (U \ strips.toFinset).card := by
  have hset : U \ (strips ++ [i]).toFinset = (U \ strips.toFinset).erase i := by
    ext a
    simp only [Finset.mem_sdiff, List.toFinset_append, Finset.mem_union,
      List.mem_toFinset, List.toFinset_cons, List.toFinset_nil, Finset.mem_insert,
      Finset.mem_erase, List.mem_singleton, Finset.not_mem_empty]
    tauto
  rw [hset]
  have hmem : i ∈ U \ strips.toFinset :=
    Finset.mem_sdiff.mpr ⟨hiU, fun hcon => hnot (List.mem_toFinset.mp hcon)⟩
  have hpos : 0 < (U \ strips.toFinset).card := Finset.card_pos.mpr ⟨i, hmem⟩
  rw [Finset.card_erase_of_mem hmem]
  omega

theorem stripById_of_exists (sb : List Strip) (j : Nat)
    (h : ∃ t ∈ sb, t.data.id = j) :
    ∃ s : Strip, stripById sb j = some s ∧ s.data.id = j := by
  have hsome : (sb.find? (fun s => s.data.id == j)).isSome = true := by
    rw [List.find?_isSome]
    rcases h with ⟨t, htmem, htid⟩
    exact ⟨t, htmem, by simp [htid]⟩
  rcases hfind : sb.find? (fun s => s.data.id == j) with _ | s
  · rw [hfind] at hsome
    simp at hsome
  · exact ⟨s, hfind, by simpa using List.find?_some hfind⟩

/-- The identities of a container scope, as a finite set (the measure that
bounds the fuelled recursion). -/
def idFinset (sb : List Strip) : Finset Nat := (sb.map (fun s => s.data.id)).toFinset

theorem chain_saturated (sb : List Strip)
    (hids : (sb.map (fun s => s.data.id)).Nodup)
    (href : ∀ s ∈ sb, ∀ j : Nat, (s.data.seq1 = some j ∨ s.data.seq2 = some j) →
      ∃ t ∈ sb, t.data.id = j) :
    ∀ fuel : Nat,
      (∀ (strips : List Nat) (ref : Strip), ref ∈ sb →
        (idFinset sb \ strips.toFinset).card + 1 ≤ fuel →
        ∀ x ∈ chainGo sb fuel strips ref, x ∉ strips →
        ∀ y, adjStep sb x y → y ∈ chainGo sb fuel strips ref)
      ∧ (∀ (strips : List Nat) (j : Option Nat),
        (idFinset sb \ strips.toFinset).card + 1 ≤ fuel →
        ∀ x ∈ chainFollow sb fuel strips j, x ∉ strips →
        ∀ y, adjStep sb x y → y ∈ chainFollow sb fuel strips j)
      ∧ (∀ (strips : List Nat) (refId : Nat) (l : List Strip), l ⊆ sb →
        (idFinset sb \ strips.toFinset).card + 1 ≤ fuel →
        ∀ x ∈ chainScan sb fuel strips refId l, x ∉ strips →
        ∀ y, adjStep sb x y → y ∈ chainScan sb fuel strips refId l) := by
  intro fuel
  induction fuel with
  | zero =>
      refine ⟨?_, ?_, ?_⟩
      · intro strips ref _ hbound
        omega
      · intro strips j hbound
        omega
      · intro strips refId l _ hbound
        omega
  | succ fuel ih =>
      have hgo : ∀ (strips : List Nat) (ref : Strip), ref ∈ sb →
          (idFinset sb \ strips.toFinset).card + 1 ≤ fuel + 1 →
          ∀ x ∈ chainGo sb (fuel + 1) strips ref, x ∉ strips →
          ∀ y, adjStep sb x y → y ∈ chainGo sb (fuel + 1) strips ref := by
        intro strips ref hrefmem hbound x hx hxnot y hadj
        simp only [chainGo] at hx ⊢
        rcases Bool.eq_false_or_eq_true (strips.contains ref.data.id) with hc | hc
        · rw [if_pos hc] at hx
          exact absurd hx hxnot
        · rw [if_neg (fun hcon => Bool.false_ne_true (hc ▸ hcon))] at hx ⊢
          have hrefnot : ref.data.id ∉ strips := not_mem_of_contains_false _ _ hc
          have hrefU : ref.data.id ∈ idFinset sb := by
            rw [idFinset, List.mem_toFinset]
            exact List.mem_map_of_mem _ hrefmem
          have hstep := sdiff_card_step (idFinset sb) strips ref.data.id hrefU hrefnot
          have hpos : 0 < (idFinset sb \ strips.toFinset).card :=
            Finset.card_pos.mpr ⟨ref.data.id, Finset.mem_sdiff.mpr
              ⟨hrefU, fun hcon => hrefnot (List.mem_toFinset.mp hcon)⟩⟩
          have hfuel1 : 1 ≤ fuel := by omega
          have hbound1 :
              (idFinset sb \ (strips ++ [ref.data.id]).toFinset).card + 1 ≤ fuel := by
            omega
          have hmemx1 : ∀ z : Nat, z ∈ strips ++ [ref.data.id] → z ∉ strips →
              z = ref.data.id := by
            intro z hz hznot
            rcases List.mem_append.mp hz with h | h
            · exact absurd h hznot
            · exact List.mem_singleton.mp h
          rcases Bool.eq_false_or_eq_true (isEffectType ref.data.stype) with he | he
          · rw [if_pos he] at hx ⊢
            have hsubA := ((chain_extends sb fuel).2.1
              (strips ++ [ref.data.id]) ref.data.seq1).subset
            have hsubB := ((chain_extends sb fuel).2.1
              (chainFollow sb fuel (strips ++ [ref.data.id]) ref.data.seq1)
              ref.data.seq2).subset
            have hsubRes := ((chain_extends sb fuel).2.2
              (chainFollow sb fuel
                (chainFollow sb fuel (strips ++ [ref.data.id]) ref.data.seq1)
                ref.data.seq2) ref.data.id sb).subset
            have hboundA :
                (idFinset sb \ (chainFollow sb fuel (strips ++ [ref.data.id])
                  ref.data.seq1).toFinset).card + 1 ≤ fuel := by
              have := sdiff_card_mono (idFinset sb) _ _ hsubA
              omega
            have hboundB :
                (idFinset sb \ (chainFollow sb fuel
                  (chainFollow sb fuel (strips ++ [ref.data.id]) ref.data.seq1)
                  ref.data.seq2).toFinset).card + 1 ≤ fuel := by
              have h2 := sdiff_card_mono (idFinset sb) _ _ hsubB
              omega
            by_cases hxB : x ∈ chainFollow sb fuel
                (chainFollow sb fuel (strips ++ [ref.data.id]) ref.data.seq1)
                ref.data.seq2
            · by_cases hxA : x ∈ chainFollow sb fuel (strips ++ [ref.data.id])
                  ref.data.seq1
              · by_cases hx1 : x ∈ strips ++ [ref.data.id]
                · have hxid : x = ref.data.id := hmemx1 x hx1 hxnot
                  subst hxid
                  rcases hadj with ⟨s, hsmem, hsid, hseff, hseq⟩
                      | ⟨s, hsmem, hsid, hseff, hseq⟩
                  · have hs_eq : s = ref :=
                      List.inj_on_of_nodup_map hids hsmem hrefmem hsid
                    subst hs_eq
                    rcases hseq with hseq1 | hseq2
                    · obtain ⟨t, hfind, htid⟩ := stripById_of_exists sb y
                        (href s hsmem y (Or.inl hseq1))
                      have hyA : y ∈ chainFollow sb fuel (strips ++ [s.data.id])
                          s.data.seq1 := by
                        rw [hseq1]
                        simp only [chainFollow, hfind]
                        exact htid ▸ chainGo_mem sb fuel _ t hfuel1
                      exact hsubRes (hsubB hyA)
                    · obtain ⟨t, hfind, htid⟩ := stripById_of_exists sb y
                        (href s hsmem y (Or.inr hseq2))
                      have hyB : y ∈ chainFollow sb fuel
                          (chainFollow sb fuel (strips ++ [s.data.id]) s.data.seq1)
                          s.data.seq2 := by
                        rw [hseq2]
                        simp only [chainFollow, hfind]
                        exact htid ▸ chainGo_mem sb fuel _ t hfuel1
                      exact hsubRes hyB
                  · have htrig : (s.data.seq1 == some ref.data.id
                        || s.data.seq2 == some ref.data.id) = true := by
                      rcases hseq with h | h <;> simp [h]
                    rw [← hsid]
                    exact chainScan_hits sb fuel ref.data.id hfuel1 sb _ s hsmem htrig
                · have hy := ih.2.1 (strips ++ [ref.data.id]) ref.data.seq1 hbound1
                    x hxA hx1 y hadj
                  exact hsubRes (hsubB hy)
              · have hy := ih.2.1 _ ref.data.seq2 hboundA x hxB hxA y hadj
                exact hsubRes hy
            · exact ih.2.2 _ ref.data.id sb (fun a ha => ha) hboundB x hx hxB y hadj
          · rw [if_neg (fun hcon => Bool.false_ne_true (he ▸ hcon))] at hx ⊢
            by_cases hx1 : x ∈ strips ++ [ref.data.id]
            · have hxid : x = ref.data.id := hmemx1 x hx1 hxnot
              subst hxid
              rcases hadj with ⟨s, hsmem, hsid, hseff, hseq⟩
                  | ⟨s, hsmem, hsid, hseff, hseq⟩
              · have hs_eq : s = ref :=
                  List.inj_on_of_nodup_map hids hsmem hrefmem hsid
                subst hs_eq
                rw [hseff] at he
                exact absurd he (by simp)
              · have htrig : (s.data.seq1 == some ref.data.id
                    || s.data.seq2 == some ref.data.id) = true := by
                  rcases hseq with h | h <;> simp [h]
                rw [← hsid]
                exact chainScan_hits sb fuel ref.data.id hfuel1 sb _ s hsmem htrig
            · exact ih.2.2 _ ref.data.id sb (fun a ha => ha) hbound1 x hx hx1 y hadj
      have hfollow : ∀ (strips : List Nat) (j : Option Nat),
          (idFinset sb \ strips.toFinset).card + 1 ≤ fuel + 1 →
          ∀ x ∈ chainFollow sb (fuel + 1) strips j, x ∉ strips →
          ∀ y, adjStep sb x y → y ∈ chainFollow sb (fuel + 1) strips j := by
        intro strips j hbound x hx hxnot y hadj
        rcases j with _ | j
        · rw [chainFollow] at hx
          exact absurd hx hxnot
        · rcases hfind : stripById sb j with _ | s
          · rw [chainFollow] at hx
            rw [hfind] at hx
            exact absurd hx hxnot
          · simp only [chainFollow, hfind] at hx ⊢
            exact hgo strips s (stripById_mem sb j s hfind).1 hbound x hx hxnot y hadj
      refine ⟨hgo, hfollow, ?_⟩
      intro strips refId l
      induction l generalizing strips with
      | nil =>
          intro _ _ x hx hxnot
          rw [chainScan] at hx
          exact absurd hx hxnot
      | cons s rest ihl =>
          intro hsub hbound x hx hxnot y hadj
          simp only [chainScan] at hx ⊢
          have hrest : rest ⊆ sb := fun a ha => hsub (List.mem_cons_of_mem _ ha)
          have hsmem : s ∈ sb := hsub (List.mem_cons_self _ _)
          rcases Bool.eq_false_or_eq_true
              (s.data.seq1 == some refId || s.data.seq2 == some refId) with ht | ht
          · rw [if_pos ht] at hx ⊢
            have hsubGo := ((chain_extends sb (fuel + 1)).1 strips s).subset
            have hboundGo :
                (idFinset sb \ (chainGo sb (fuel + 1) strips s).toFinset).card + 1
                  ≤ fuel + 1 := by
              have := sdiff_card_mono (idFinset sb) _ _ hsubGo
              omega
            by_cases hx1 : x ∈ chainGo sb (fuel + 1) strips s
            · have hy := hgo strips s hsmem hbound x hx1 hxnot y hadj
              exact ((chain_extends sb (fuel + 1)).2.2 _ refId rest).subset hy
            · exact ihl _ hrest hboundGo x hx hx1 y hadj
          · rw [if_neg (fun hcon => Bool.false_ne_true (ht ▸ hcon))] at hx ⊢
            exact ihl _ hrest hbound x hx hxnot y hadj

/-- C9: on any container scope with stable distinct identities, in-scope
references, and inputs only on effect strips — including scopes whose
reference graph is cyclic — the effect-chain query yields exactly the
connected component of the seed under the input-reference relation taken in
both directions, and re-running it on its own result adds nothing (the
membership guard stops every revisit, which is what bounds the recursion). -/
theorem effect_chain_closure_component (sb : List Strip) (seed : Strip)
    (hseed : seed ∈ sb)
    (hids : (sb.map (fun s => s.data.id)).Nodup)
    (hwf : ∀ s ∈ sb, isEffectType s.data.stype = false →
      s.data.seq1 = none ∧ s.data.seq2 = none)
    (href : ∀ s ∈ sb, ∀ j : Nat, (s.data.seq1 = some j ∨ s.data.seq2 = some j) →
      ∃ t ∈ sb, t.data.id = j) :
    (∀ x : Nat, x ∈ SEQ_query_strip_effect_chain sb [] seed
        ↔ Relation.ReflTransGen (adjStep sb) seed.data.id x)
    ∧ SEQ_query_strip_effect_chain sb (SEQ_query_strip_effect_chain sb [] seed) seed
        = SEQ_query_strip_effect_chain sb [] seed := by
  have hbound0 : (idFinset sb \ ([] : List Nat).toFinset).card + 1 ≤ sb.length + 1 := by
    have h1 := List.toFinset_card_le (sb.map (fun s => s.data.id))
    rw [List.length_map] at h1
    simp only [List.toFinset_nil, Finset.sdiff_empty, idFinset]
    omega
  have hmemseed : seed.data.id ∈ SEQ_query_strip_effect_chain sb [] seed := by
    rw [SEQ_query_strip_effect_chain]
    exact chainGo_mem sb (sb.length + 1) [] seed (by omega)
  constructor
  · intro x
    constructor
    · intro hx
      rw [SEQ_query_strip_effect_chain] at hx
      rcases ((chain_sound sb hwf (sb.length + 1)).1 [] seed x hseed hx) with h | h
      · simp at h
      · exact h
    · intro hrt
      induction hrt with
      | refl => exact hmemseed
      | tail hab hstep hih =>
          rw [SEQ_query_strip_effect_chain] at hih ⊢
          exact (chain_saturated sb hids href (sb.length + 1)).1 [] seed hseed hbound0
            _ hih (by simp) _ hstep
  · rw [SEQ_query_strip_effect_chain, SEQ_query_strip_effect_chain]
    have hc : (chainGo sb (sb.length + 1) [] seed).contains seed.data.id = true := by
      rw [contains_iff_mem_nat]
      rw [SEQ_query_strip_effect_chain] at hmemseed
      exact hmemseed
    conv =>
      lhs
      rw [chainGo]
    rw [if_pos hc]

/-- Effect strip `a` whose input is `b` — together with `wB` this forms a
cyclic reference graph. -/
def wA : Strip := .mk ⟨1, ['a'], .effect 1, 1, 0, 0, 100, some 2, none⟩ []

/-- Effect strip `b` whose input is `a` (closing the cycle). -/
def wB : Strip := .mk ⟨2, ['b'], .effect 1, 2, 0, 0, 100, some 1, none⟩ []

/-- A container scope whose reference graph is a two-cycle. -/
def cycSb : List Strip := [wA, wB]

/-- Witness for C9 on the concrete cyclic scope: the closure from `a`
contains `b`. -/
theorem effect_chain_closure_component_witness :
    2 ∈ SEQ_query_strip_effect_chain cycSb [] wA := by
  have href : ∀ s ∈ cycSb, ∀ j : Nat,
      (s.data.seq1 = some j ∨ s.data.seq2 = some j) →
      ∃ t ∈ cycSb, t.data.id = j := by
    intro s hs j hj
    rcases List.mem_cons.mp hs with rfl | hs2
    · rcases hj with h | h
      · exact ⟨wB, by simp [cycSb], Option.some.inj h⟩
      · exact absurd h (by simp [wA])
    · rcases List.mem_cons.mp hs2 with rfl | hs3
      · rcases hj with h | h
        · exact ⟨wA, by simp [cycSb], Option.some.inj h⟩
        · exact absurd h (by simp [wB])
      · simp at hs3
  have h := effect_chain_closure_component cycSb wA (by simp [cycSb])
    (by decide) (by decide) href
  exact (h.1 2).mpr
    (Relation.ReflTransGen.single (Or.inl ⟨wA, by simp [cycSb], rfl, rfl, Or.inl rfl⟩))
